import Mathlib

/-
Verification development for the keyed_stats aggregation tool.

The definitions below are a shallow embedding of src/keyed_stats.py:
  - PyVal models the values stored in a StatList: a field value is parsed
    as a number when possible, otherwise kept as a string; the interpreter
    value None is also representable.  The order on PyVal models the
    interpreter's mixed-type comparison: None sorts below every number,
    and every number sorts below every string; numbers compare
    numerically and strings compare lexicographically by code point.
  - StatList, KeyedRecord, KeyedFile, merge_tables and the helper
    functions mirror the classes and functions of the same names in the
    source, with file input replaced by explicit arguments and machine
    floats replaced by rationals.
-/

namespace KeyedStats

/-- Lexicographic code-point comparison of character lists; this is the
order the interpreter uses on strings. -/
def charsLe : List Char → List Char → Bool
  | [], _ => true
  | _ :: _, [] => false
  | a :: as, b :: bs =>
    if a.toNat < b.toNat then true
    else if b.toNat < a.toNat then false
    else charsLe as bs

/-- String comparison by underlying character data. -/
def strLe (a b : String) : Bool := charsLe a.data b.data

/-- A value held by a StatList: a number if the raw field parsed as one,
otherwise the raw string; None is the interpreter's missing value. -/
inductive PyVal : Type where
  | none : PyVal
  | num : ℚ → PyVal
  | str : String → PyVal
deriving DecidableEq

/-- Mixed-type comparison: None below numbers below strings. -/
def PyVal.ble : PyVal → PyVal → Bool
  | .none, _ => true
  | .num _, .none => false
  | .num a, .num b => decide (a ≤ b)
  | .num _, .str _ => true
  | .str _, .none => false
  | .str _, .num _ => false
  | .str a, .str b => strLe a b

instance : LE PyVal := ⟨fun a b => PyVal.ble a b = true⟩

instance : DecidableRel (α := PyVal) (· ≤ ·) :=
  fun a b => inferInstanceAs (Decidable (PyVal.ble a b = true))

theorem PyVal.le_def (a b : PyVal) : a ≤ b ↔ PyVal.ble a b = true := Iff.rfl

theorem charsLe_refl (l : List Char) : charsLe l l = true := by
  induction l with
  | nil => rfl
  | cons a as ih => simp [charsLe, ih]

theorem charsLe_trans : ∀ (a b c : List Char),
    charsLe a b = true → charsLe b c = true → charsLe a c = true
  | [], _, _, _, _ => rfl
  | _ :: _, [], _, h, _ => by simp [charsLe] at h
  | _ :: _, _ :: _, [], _, h => by simp [charsLe] at h
  | a :: as, b :: bs, c :: cs, hab, hbc => by
    simp only [charsLe] at hab hbc ⊢
    rcases Nat.lt_trichotomy a.toNat b.toNat with h1 | h1 | h1
    · rcases Nat.lt_trichotomy b.toNat c.toNat with h2 | h2 | h2
      · simp [Nat.lt_trans h1 h2]
      · have h3 : a.toNat < c.toNat := h2 ▸ h1
        simp [h3]
      · simp [Nat.lt_asymm h2, h2] at hbc
    · rcases Nat.lt_trichotomy b.toNat c.toNat with h2 | h2 | h2
      · have h3 : a.toNat < c.toNat := h1 ▸ h2
        simp [h3]
      · simp [show ¬ a.toNat < b.toNat by omega, show ¬ b.toNat < a.toNat by omega] at hab
        simp [show ¬ b.toNat < c.toNat by omega, show ¬ c.toNat < b.toNat by omega] at hbc
        simp [show ¬ a.toNat < c.toNat by omega, show ¬ c.toNat < a.toNat by omega]
        exact charsLe_trans as bs cs hab hbc
      · simp [Nat.lt_asymm h2, h2] at hbc
    · simp [Nat.lt_asymm h1, h1] at hab

theorem charsLe_total : ∀ (a b : List Char),
    charsLe a b = true ∨ charsLe b a = true
  | [], _ => Or.inl rfl
  | _ :: _, [] => Or.inr rfl
  | a :: as, b :: bs => by
    simp only [charsLe]
    rcases Nat.lt_trichotomy a.toNat b.toNat with h | h | h
    · simp [h]
    · simp [h, Nat.lt_irrefl]
      exact charsLe_total as bs
    · simp [h, Nat.lt_asymm h]

theorem Char.eq_of_toNat_eq {a b : Char} (h : a.toNat = b.toNat) : a = b :=
  Char.ext (UInt32.ext h)

theorem charsLe_antisymm : ∀ (a b : List Char),
    charsLe a b = true → charsLe b a = true → a = b
  | [], [], _, _ => rfl
  | [], _ :: _, _, h => by simp [charsLe] at h
  | _ :: _, [], h, _ => by simp [charsLe] at h
  | a :: as, b :: bs, hab, hba => by
    simp only [charsLe] at hab hba
    rcases Nat.lt_trichotomy a.toNat b.toNat with h | h | h
    · simp [h, Nat.lt_asymm h] at hba
    · simp [h, Nat.lt_irrefl] at hab hba
      exact congrArg₂ (· :: ·) (Char.eq_of_toNat_eq h) (charsLe_antisymm as bs hab hba)
    · simp [h, Nat.lt_asymm h] at hab

theorem strLe_refl (a : String) : strLe a a = true := charsLe_refl _

theorem strLe_trans {a b c : String} (h1 : strLe a b = true)
    (h2 : strLe b c = true) : strLe a c = true :=
  charsLe_trans _ _ _ h1 h2

theorem strLe_total (a b : String) : strLe a b = true ∨ strLe b a = true :=
  charsLe_total _ _

theorem strLe_antisymm {a b : String} (h1 : strLe a b = true)
    (h2 : strLe b a = true) : a = b :=
  String.ext (charsLe_antisymm _ _ h1 h2)

theorem PyVal.ble_refl (a : PyVal) : PyVal.ble a a = true := by
  cases a <;> simp [PyVal.ble, strLe_refl]

theorem PyVal.ble_trans {a b c : PyVal} (h1 : PyVal.ble a b = true)
    (h2 : PyVal.ble b c = true) : PyVal.ble a c = true := by
  cases a <;> cases b <;> cases c <;>
    simp_all [PyVal.ble]
  · exact le_trans h1 h2
  · exact strLe_trans h1 h2

theorem PyVal.ble_total (a b : PyVal) :
    PyVal.ble a b = true ∨ PyVal.ble b a = true := by
  cases a <;> cases b <;> simp [PyVal.ble]
  · exact le_total _ _
  · exact strLe_total _ _

theorem PyVal.ble_antisymm {a b : PyVal} (h1 : PyVal.ble a b = true)
    (h2 : PyVal.ble b a = true) : a = b := by
  cases a <;> cases b <;> simp_all [PyVal.ble]
  · exact le_antisymm h1 h2
  · exact strLe_antisymm h1 h2

/-- A single parsed input line: the tuple of key-field values, the value
the statistics are computed over, and the tuple of parsed date fields
(a date is represented by its absolute month number, 12 * year + month - 1). -/
structure KeyedRecord : Type where
  keys : List String
  val : PyVal
  dates : List ℕ
deriving DecidableEq

/-- A collection of KeyedRecords upon which statistics can be computed. -/
structure StatList : Type where
  krs : List KeyedRecord
  is_sorted : Bool
deriving DecidableEq

namespace StatList

/-- The state produced by StatList.__init__: an empty list, flagged sorted. -/
def init : StatList := { krs := [], is_sorted := true }

/-- StatList.add: append a record and clear the sorted flag. -/
def add (s : StatList) (keyed_rec : KeyedRecord) : StatList :=
  { krs := s.krs ++ [keyed_rec], is_sorted := false }

/-- StatList.get_count: the number of items currently in the list. -/
def get_count (s : StatList) : ℕ := s.krs.length

/-- The relation self.krs.sort(key=lambda kr: kr.val) sorts by:
records compared by their val field. -/
def leVal (a b : KeyedRecord) : Prop := a.val ≤ b.val

instance : DecidableRel leVal :=
  fun a b => inferInstanceAs (Decidable (a.val ≤ b.val))

instance : IsTotal KeyedRecord leVal :=
  ⟨fun a b => PyVal.ble_total a.val b.val⟩

instance : IsTrans KeyedRecord leVal :=
  ⟨fun _ _ _ h1 h2 => PyVal.ble_trans h1 h2⟩

/-- The in-place sort self.krs.sort(key=lambda kr: kr.val): an
ascending sort of the records by their value. -/
def sortKrs (l : List KeyedRecord) : List KeyedRecord :=
  l.insertionSort leVal

/-- The guarded sort shared by get_mode and get_percentiles:
if not self.is_sorted: self.krs.sort(key=lambda kr: kr.val); self.is_sorted = True. -/
def sort_if_needed (s : StatList) : StatList :=
  if s.is_sorted then s else { krs := sortKrs s.krs, is_sorted := true }

/-- The scan inside StatList.get_mode over the sorted values: state is
(current value, current run length, best count so far, best value so far),
started at (None, 0, -1, None); on a value change the current run is
flushed into the best pair when strictly longer. -/
def modeLoop : List PyVal → PyVal → ℤ → ℤ → PyVal → PyVal × ℤ
  | [], val, count, max_count, max_val =>
    if max_count < count then (val, count) else (max_val, max_count)
  | v :: rest, val, count, max_count, max_val =>
    if v ≠ val then
      if max_count < count then modeLoop rest v 1 count val
      else modeLoop rest v 1 max_count max_val
    else modeLoop rest val (count + 1) max_count max_val

/-- StatList.get_mode: sort if needed, then scan for the longest run.
Returns the (value, count) result together with the updated state. -/
def get_mode (s : StatList) : (PyVal × ℤ) × StatList :=
  let t := s.sort_if_needed
  (modeLoop (t.krs.map (fun kr => kr.val)) PyVal.none 0 (-1) PyVal.none, t)

end StatList

/-- Python int() applied to a rational: truncation toward zero. -/
def pyInt (q : ℚ) : ℤ := if 0 ≤ q then ⌊q⌋ else -⌊-q⌋

/-- Python sequence indexing: nonnegative indices from the front,
negative indices wrap from the back, anything else raises (None). -/
def pyGet {α : Type} (l : List α) (i : ℤ) : Option α :=
  if 0 ≤ i then l[i.toNat]?
  else if (-i).toNat ≤ l.length then l[l.length - (-i).toNat]? else Option.none

/-- The test kr.val in [None, '']: a missing value in get_percentiles. -/
def missingVal : PyVal → Bool
  | .none => true
  | .str s => s == ""
  | .num _ => false

namespace StatList

/-- StatList.get_percentiles: sort if needed; when only_numeric, skip the
leading run of missing values (resetting to 0 when everything is missing)
and compute each index as idx + int(p/100 * (n - idx)); otherwise each
index is int(p/100 * n).  Returns the selected values (None when an index
is out of range, which in the source raises IndexError) and the updated
state. -/
def get_percentiles (s : StatList) (percentiles : List ℚ)
    (only_numeric : Bool) : Option (List PyVal) × StatList :=
  let t := s.sort_if_needed
  let num_recs := t.get_count
  let vals := t.krs.map (fun kr => kr.val)
  let percentile_idcs : List ℤ :=
    if only_numeric then
      let idx0 := (vals.takeWhile missingVal).length
      let idx := if idx0 = num_recs then 0 else idx0
      percentiles.map (fun x =>
        (idx : ℤ) + pyInt (x / 100 * ((num_recs : ℚ) - (idx : ℚ))))
    else
      percentiles.map (fun x => pyInt (x / 100 * (num_recs : ℚ)))
  (percentile_idcs.mapM (fun i => pyGet vals i), t)

/-- Records pairwise ordered by value: what the sort establishes. -/
def sortedByVal (l : List KeyedRecord) : Prop := l.Pairwise leVal

/-- The lazy-sort representation invariant: whenever the is_sorted flag
is set, the stored records are sorted ascending by value. -/
def Inv (s : StatList) : Prop := s.is_sorted = true → sortedByVal s.krs

theorem sortedByVal_sortKrs (l : List KeyedRecord) : sortedByVal (sortKrs l) :=
  List.sorted_insertionSort leVal l

theorem sortKrs_perm (l : List KeyedRecord) : List.Perm (sortKrs l) l :=
  List.perm_insertionSort leVal l

theorem sort_if_needed_is_sorted (s : StatList) :
    (s.sort_if_needed).is_sorted = true ∨ s.sort_if_needed = s := by
  unfold sort_if_needed
  by_cases h : s.is_sorted <;> simp [h]

theorem sort_if_needed_sorted (s : StatList) (h : Inv s) :
    (s.sort_if_needed).is_sorted = true ∧ sortedByVal (s.sort_if_needed).krs := by
  unfold sort_if_needed
  by_cases hs : s.is_sorted = true
  · simp [hs, h hs]
  · simp [Bool.of_not_eq_true hs, sortedByVal_sortKrs]

theorem sort_if_needed_perm (s : StatList) : List.Perm (s.sort_if_needed).krs s.krs := by
  unfold sort_if_needed
  by_cases hs : s.is_sorted = true
  · simp [hs]
  · simp [Bool.of_not_eq_true hs, sortKrs_perm]

theorem Inv_sort_if_needed (s : StatList) (h : Inv s) : Inv s.sort_if_needed :=
  fun _ => (sort_if_needed_sorted s h).2

end StatList

/-- Absolute month number of a calendar year and month. -/
def ym (year month : ℕ) : ℕ := 12 * year + (month - 1)

/-- Decimal digits of n padded on the left with zeros to the width w,
like the %Y (w = 4) and %m (w = 2) strftime directives. -/
def padNum (w n : ℕ) : String :=
  let s := Nat.repr n
  String.mk (List.replicate (w - s.length) '0' ++ s.data)

/-- strftime('%Y%m') on an absolute month number. -/
def fmtYYYYMM (dt : ℕ) : String :=
  padNum 4 (dt / 12) ++ padNum 2 (dt % 12 + 1)

/-- A per-key-field backoff lookup table: a specific value maps to the
list of broader alternate values, or to nothing when absent. -/
def Backoff : Type := String → Option (List String)

/-- The empty backoff table (no backoff file for the key field). -/
def emptyBackoff : Backoff := fun _ => Option.none

/-- The KeyedFile configuration state used by valid_months and
all_keysets: the loaded backoff tables (one per key field, aligned by
position) and the date windowing parameters. -/
structure KeyedFile : Type where
  backoffs : List Backoff
  month_lag : ℕ
  month_group : ℕ

namespace KeyedFile

/-- KeyedFile.valid_months: the wildcard label followed by the months
dt + x for x in xrange(0, -month_group - 1, -1), each as YYYYMM.  The
source computes lagdt = dt + relativedelta(months=month_lag) but then
uses dt, not lagdt, in the list comprehension, so the lag never reaches
the output; the unused binding is kept here as in the source. -/
def valid_months (kf : KeyedFile) (dt : ℕ) : List String :=
  let _lagdt := dt + kf.month_lag
  "" :: (List.range (kf.month_group + 1)).map (fun x => fmtYYYYMM (dt - x))

/-- The candidate list built for one non-date key field in all_keysets:
val = [k]; if k not in ('', None): val.append(''); if k in backoff:
val.extend(backoff[k]). -/
def keyCandidates (b : Backoff) (k : String) : List String :=
  let val := [k]
  let val := if k ≠ "" then val ++ [""] else val
  match b k with
  | Option.some alts => val ++ alts
  | Option.none => val

/-- itertools.product over a list of candidate lists: tuples in
lexicographic generation order, the last slot varying fastest. -/
def pyProduct {α : Type} : List (List α) → List (List α)
  | [] => [[]]
  | l :: ls => l.flatMap (fun x => (pyProduct ls).map (fun t => x :: t))

/-- KeyedFile.all_keysets: per non-date key field the keyCandidates list
(pairing each key value with the backoff table at the same position),
then the valid_months list for each date field, and the cartesian
product of all of them. -/
def all_keysets (kf : KeyedFile) (kr : KeyedRecord) : List (List String) :=
  let keylists := List.zipWith (fun k b => keyCandidates b k) kr.keys kf.backoffs
  let datelists := kr.dates.map (fun x => kf.valid_months x)
  pyProduct (keylists ++ datelists)

end KeyedFile

/-- Parse an optional run of decimal digits as a number. -/
def digitsToNat? : List Char → Option ℕ
  | [] => Option.none
  | cs =>
    cs.foldlM (fun acc c =>
      if 48 ≤ c.toNat ∧ c.toNat ≤ 57 then Option.some (acc * 10 + (c.toNat - 48))
      else Option.none) 0

/-- Python int() applied to a string: an optional sign followed by
digits, otherwise a ValueError (None). -/
def pyParseInt (s : String) : Option ℤ :=
  match s.data with
  | '-' :: rest => (digitsToNat? rest).map (fun n => -(n : ℤ))
  | '+' :: rest => (digitsToNat? rest).map (fun n => (n : ℤ))
  | cs => (digitsToNat? cs).map (fun n => (n : ℤ))

/-- KeyedFile.names_to_cols: for each specifier, first look for an exact
match in the header names (1-based position of the first match), else
parse it as an integer column offset; raise FieldNotFoundError (the
error carries the specifier) when neither resolves or when the resolved
index exceeds the header width. -/
def names_to_cols (names : List String) (fields : List String) :
    Except String (List ℤ) :=
  fields.mapM (fun f =>
    let idx : Option ℤ :=
      match List.findIdx? (fun n => n == f) names with
      | Option.some i => Option.some ((i : ℤ) + 1)
      | Option.none => pyParseInt f
    match idx with
    | Option.none => Except.error f
    | Option.some i =>
      if i > (names.length : ℤ) then Except.error f else Except.ok i)

/-- Interpreter exception classes that can arise in read_backoffs. -/
inductive PyExc : Type where
  | ioError : PyExc
  | typeError : PyExc
  | valueError : PyExc
deriving DecidableEq

/-- A file system: maps a filename to its list of lines (without
trailing newlines), or to the exception reading it raises. -/
def FileSys : Type := String → Except PyExc (List String)

/-- Assignment h[key] = v on an insertion-ordered dictionary. -/
def dictSet (h : List (String × List String)) (k : String)
    (v : List String) : List (String × List String) :=
  if h.any (fun p => p.1 == k) then
    h.map (fun p => if p.1 == k then (k, v) else p)
  else h ++ [(k, v)]

/-- The line loop of read_backoffs, threading the partially built table:
each line is split on a tab into exactly (key, backvals), anything else
raises ValueError; a non-empty backvals is split on spaces and stored. -/
def backoffLines (h : List (String × List String)) :
    List String → List (String × List String) × Option PyExc
  | [] => (h, Option.none)
  | ln :: rest =>
    match ln.splitOn "\t" with
    | [key, backvals] =>
      backoffLines
        (if backvals.length > 0 then dictSet h key (backvals.splitOn " ") else h)
        rest
    | _ => (h, Option.some PyExc.valueError)

/-- KeyedFile.read_backoffs: one lookup table per backoff filename, an
unspecified (None) filename giving an empty table.  The source wraps the
read loop in a Python 2 clause reading except TypeError, IOError: pass,
which catches only TypeError (binding it to the name IOError); any other
exception, in particular an IOError from a missing or unreadable file,
propagates to the caller.  That control flow is modelled exactly. -/
def read_backoffs (fs : FileSys) (backoffs : List (Option String)) :
    Except PyExc (List (List (String × List String))) :=
  backoffs.mapM (fun bf =>
    match bf with
    | Option.none => Except.ok []
    | Option.some name =>
      let r :=
        match fs name with
        | Except.error e => (([] : List (String × List String)), Option.some e)
        | Except.ok lines => backoffLines [] lines
      match r.2 with
      | Option.none => Except.ok r.1
      | Option.some PyExc.typeError => Except.ok r.1
      | Option.some e => Except.error e)

/-- A statistic cell read back from an already built table. -/
inductive Cell : Type where
  | num : ℚ → Cell
  | empty : Cell
  | nanStr : Cell
  | other : String → Cell
deriving DecidableEq

/-- The test x in ("", "nan") used by the merge_tables filters. -/
def Cell.isBlank : Cell → Bool
  | .empty => true
  | .nanStr => true
  | _ => false

/-- float(x) on a cell: a numeric cell parses, anything else raises
ValueError (None). -/
def Cell.toFloat : Cell → Option ℚ
  | .num q => Option.some q
  | _ => Option.none

/-- The _mean merge branch of merge_tables for one key when a _count
column exists: weights are each count divided by the merged count,
zipped positionally with the mean cells; cells equal to "" or "nan" are
skipped; a remaining non-numeric cell raises ValueError, which the
enclosing try catches, yielding ""; a weighted sum of exactly zero is
also forced to "". -/
def merge_mean (counts : List ℚ) (merged_count : ℚ)
    (means : List Cell) : Cell :=
  let weights := counts.map (fun c => c / merged_count)
  let kept := (weights.zip means).filter (fun wm => ¬ wm.2.isBlank)
  match kept.mapM (fun wm => (wm.2.toFloat).map (fun m => wm.1 * m)) with
  | Option.none => Cell.empty
  | Option.some terms => if terms.sum = 0 then Cell.empty else Cell.num terms.sum

/-- merge_tables restricted to one key of a table whose statistic
columns are a _count and a _mean column, in the branch with more than
one collected row: vals[count_idx] = sum(int(x) for the count cells)
(the counts are taken already parsed here), then the mean column is
merged with count weights. -/
def merge_count_mean (rows : List (ℚ × Cell)) : ℚ × Cell :=
  let counts := rows.map (fun r => r.1)
  let merged_count := counts.sum
  (merged_count, merge_mean counts merged_count (rows.map (fun r => r.2)))

/-- Claim C2: the claim states that for parsed month 201308 with lag=2
and width=1 the DateWindower returns ["", "201310", "201309"].  The code
computes the lagged month into a local that it never uses and windows
from the original month instead, contradicting its own comment, so at
this input it returns ["", "201308", "201307"]. -/
theorem valid_months_201308_lag2_width1 :
    KeyedFile.valid_months
        { backoffs := [], month_lag := 2, month_group := 1 } (ym 2013 8)
      = ["", "201308", "201307"]
    ∧ (["", "201308", "201307"] : List String) ≠ ["", "201310", "201309"] := by
  exact ⟨by decide, by decide⟩

/-- Claim C3 counterexample: merging the rows (x_count=3, x_mean=10) and
(x_count=1, x_mean=2) yields merged count 4 and merged mean
10*(3/4) + 2*(1/4) = 8, not the 7.5 the claim states. -/
theorem merge_count_mean_example_refutes :
    merge_count_mean [(3, Cell.num 10), (1, Cell.num 2)] = (4, Cell.num 8)
    ∧ Cell.num 8 ≠ Cell.num (15 / 2) := by
  constructor
  · simp [merge_count_mean, merge_mean, Cell.isBlank, Cell.toFloat]
    norm_num [List.mapM.loop, Cell.toFloat]
  · intro h
    rw [Cell.num.injEq] at h
    norm_num at h

/-- Claim C3 as amended: merging two single-row tables with x_count=3,
x_mean=10 and x_count=1, x_mean=2 yields x_count=4 and x_mean equal to
the count-weighted combination 10*(3/4) + 2*(1/4) = 8.0. -/
theorem merge_count_mean_example :
    merge_count_mean [(3, Cell.num 10), (1, Cell.num 2)]
      = (4, Cell.num (10 * (3 / 4) + 2 * (1 / 4))) := by
  simp [merge_count_mean, merge_mean, Cell.isBlank, Cell.toFloat]
  norm_num [List.mapM.loop, Cell.toFloat]

/-- Claim C4: the claim states that I/O errors on optional backoff files
are swallowed and yield an empty mapping.  On a file system in which the
named backoff file raises IOError, read_backoffs propagates the IOError
instead: the Python 2 clause except TypeError, IOError catches only
TypeError.  (An unspecified None filename does yield an empty mapping.) -/
theorem read_backoffs_ioError_propagates :
    read_backoffs (fun _ => Except.error PyExc.ioError)
        [Option.some "zip_backoff"]
      = Except.error PyExc.ioError
    ∧ (Except.error PyExc.ioError
        ≠ (Except.ok [[]] : Except PyExc (List (List (String × List String)))))
    ∧ read_backoffs (fun _ => Except.error PyExc.ioError) [Option.none]
      = Except.ok [[]] := by
  exact ⟨rfl, fun h => Except.noConfusion h, rfl⟩

theorem names_to_cols_single (names : List String) (f : String) :
    names_to_cols names [f] =
      match (match List.findIdx? (fun n => n == f) names with
             | Option.some i => Option.some ((i : ℤ) + 1)
             | Option.none => pyParseInt f) with
      | Option.none => Except.error f
      | Option.some i =>
        if i > (names.length : ℤ) then Except.error f else Except.ok [i] := by
  unfold names_to_cols
  cases h : List.findIdx? (fun n => n == f) names with
  | some i =>
    simp only [List.mapM_cons, List.mapM_nil, h]
    by_cases hgt : ((i : ℤ) + 1) > (names.length : ℤ) <;> simp [hgt]
  | none =>
    simp only [List.mapM_cons, List.mapM_nil, h]
    cases hp : pyParseInt f with
    | none => simp
    | some k =>
      by_cases hgt : (k : ℤ) > (names.length : ℤ) <;> simp [hgt]

/-- Claim C9: field resolution.  An exact header-name match resolves to
its 1-based position (the first match); otherwise the specifier parses
as an integer column offset and that offset is returned; the
FieldNotFoundError (carrying the specifier) is raised exactly when
neither resolves or when the resolved index exceeds the header width. -/
theorem names_to_cols_resolution (names : List String) (f : String) :
    (∀ i, List.findIdx? (fun n => n == f) names = Option.some i →
      names_to_cols names [f] = Except.ok [(i : ℤ) + 1])
    ∧ (List.findIdx? (fun n => n == f) names = Option.none →
       ∀ k, pyParseInt f = Option.some k →
        ((k ≤ (names.length : ℤ) → names_to_cols names [f] = Except.ok [k])
         ∧ ((names.length : ℤ) < k → names_to_cols names [f] = Except.error f)))
    ∧ (List.findIdx? (fun n => n == f) names = Option.none →
       pyParseInt f = Option.none →
       names_to_cols names [f] = Except.error f) := by
  refine ⟨?_, ?_, ?_⟩
  · intro i hi
    have hb : i < names.length := (List.findIdx?_eq_some_iff_findIdx_eq.mp hi).1
    rw [names_to_cols_single, hi]
    have : ¬ ((i : ℤ) + 1 > (names.length : ℤ)) := by
      push_neg
      omega
    simp [this]
  · intro hn k hk
    rw [names_to_cols_single, hn, hk]
    constructor
    · intro hle
      have : ¬ (k > (names.length : ℤ)) := not_lt.mpr hle
      simp [this]
    · intro hgt
      simp [hgt]
  · intro hn hp
    rw [names_to_cols_single, hn, hp]

/-- Claim C9 witness: on the header [alpha, beta] the specifier beta
resolves to position 2; on an absent header the specifier 3 parses as an
offset but exceeds the width and fails; the specifier 0 is accepted. -/
theorem names_to_cols_resolution_witness :
    List.findIdx? (fun n => n == "beta") ["alpha", "beta"] = Option.some 1
    ∧ names_to_cols ["alpha", "beta"] ["beta"] = Except.ok [2]
    ∧ pyParseInt "3" = Option.some 3
    ∧ names_to_cols [] ["3"] = Except.error "3" := by
  refine ⟨by decide, ?_, by decide, ?_⟩
  · have h := (names_to_cols_resolution ["alpha", "beta"] "beta").1 1 (by decide)
    simpa using h
  · have h := (((names_to_cols_resolution [] "3").2.1 (by decide) 3
      (by decide)).2 (by decide))
    simpa using h

/-- Claim C5: the lazy-sort invariant.  add always clears the is_sorted
flag (and trivially preserves the invariant); the empty initial state
satisfies the invariant; both order-dependent queries (get_mode and
get_percentiles) read the record list only through the guarded sort,
which under the invariant leaves the list sorted ascending by value with
the flag set, and both return that state; hence whenever the flag is
true the stored list is sorted by value. -/
theorem statlist_lazy_sort_invariant :
    (∀ s kr, (StatList.add s kr).is_sorted = false)
    ∧ StatList.Inv StatList.init
    ∧ (∀ s kr, StatList.Inv s → StatList.Inv (StatList.add s kr))
    ∧ (∀ s, StatList.Inv s →
        s.sort_if_needed.is_sorted = true
        ∧ StatList.sortedByVal s.sort_if_needed.krs)
    ∧ (∀ s, (StatList.get_mode s).2 = s.sort_if_needed)
    ∧ (∀ s ps b, (StatList.get_percentiles s ps b).2 = s.sort_if_needed)
    ∧ (∀ s, StatList.Inv s → StatList.Inv (StatList.get_mode s).2)
    ∧ (∀ s ps b, StatList.Inv s →
        StatList.Inv (StatList.get_percentiles s ps b).2) := by
  refine ⟨fun s kr => rfl, fun _ => List.Pairwise.nil, ?_, ?_, fun s => rfl,
    fun s ps b => rfl, ?_, ?_⟩
  · intro s kr h hyp
    exact absurd hyp (by simp [StatList.add])
  · exact fun s h => StatList.sort_if_needed_sorted s h
  · exact fun s h => StatList.Inv_sort_if_needed s h
  · exact fun s ps b h => StatList.Inv_sort_if_needed s h

/-- Claim C5 witness: a two-record unsorted state satisfies the
invariant (its flag is clear), and after the guarded sort the flag is
set and the records are sorted by value. -/
theorem statlist_lazy_sort_invariant_witness :
    StatList.Inv { krs := [⟨[], PyVal.num 5, []⟩, ⟨[], PyVal.num 3, []⟩],
                   is_sorted := false }
    ∧ (StatList.sort_if_needed { krs := [⟨[], PyVal.num 5, []⟩,
          ⟨[], PyVal.num 3, []⟩], is_sorted := false }).is_sorted = true
    ∧ StatList.sortedByVal (StatList.sort_if_needed
        { krs := [⟨[], PyVal.num 5, []⟩, ⟨[], PyVal.num 3, []⟩],
          is_sorted := false }).krs :=
  ⟨fun hyp => absurd hyp Bool.false_ne_true,
   statlist_lazy_sort_invariant.2.2.2.1
     { krs := [⟨[], PyVal.num 5, []⟩, ⟨[], PyVal.num 3, []⟩],
       is_sorted := false }
     (fun hyp => absurd hyp Bool.false_ne_true)⟩

theorem pyInt_of_nonneg {q : ℚ} (h : 0 ≤ q) : pyInt q = ⌊q⌋ := if_pos h

theorem frac_index_nonneg {p r : ℚ} (hp : 0 ≤ p) (hr : 0 ≤ r) :
    0 ≤ pyInt (p / 100 * r) := by
  have hq : 0 ≤ p / 100 * r := mul_nonneg (div_nonneg hp (by norm_num)) hr
  rw [pyInt_of_nonneg hq]
  exact Int.floor_nonneg.mpr hq

theorem frac_index_lt {p : ℚ} (m : ℕ) (hp0 : 0 ≤ p) (hp : p ≤ 99)
    (hm : 0 < m) : pyInt (p / 100 * (m : ℚ)) < (m : ℤ) := by
  have hq : 0 ≤ p / 100 * (m : ℚ) :=
    mul_nonneg (div_nonneg hp0 (by norm_num)) (by positivity)
  rw [pyInt_of_nonneg hq, Int.floor_lt]
  have h1 : p / 100 < 1 := by
    rw [div_lt_one (by norm_num)]
    linarith
  calc p / 100 * (m : ℚ) < 1 * (m : ℚ) :=
        mul_lt_mul_of_pos_right h1 (by exact_mod_cast hm)
    _ = ((m : ℤ) : ℚ) := by push_cast; ring

theorem mapM_option_isSome {α β : Type} (f : α → Option β) :
    ∀ (l : List α), (∀ x ∈ l, (f x).isSome = true) →
      ∃ ys, l.mapM f = Option.some ys ∧ ys.length = l.length
  | [], _ => ⟨[], rfl, rfl⟩
  | x :: xs, h => by
    obtain ⟨y, hy⟩ := Option.isSome_iff_exists.mp (h x (by simp))
    obtain ⟨ys, hys, hlen⟩ :=
      mapM_option_isSome f xs (fun z hz => h z (by simp [hz]))
    refine ⟨y :: ys, ?_, by simp [hlen]⟩
    rw [List.mapM_cons, hy, hys]
    rfl

theorem pyGet_isSome {α : Type} (l : List α) (i : ℤ) (h0 : 0 ≤ i)
    (hl : i < (l.length : ℤ)) : (pyGet l i).isSome = true := by
  rw [pyGet, if_pos h0]
  have hlt : i.toNat < l.length := by omega
  rw [List.getElem?_eq_getElem hlt]
  rfl

theorem percentile_idx_bound {p : ℚ} (n idx : ℕ) (hp0 : 0 ≤ p)
    (hp99 : p ≤ 99) (hidx : idx < n) :
    0 ≤ (idx : ℤ) + pyInt (p / 100 * ((n : ℚ) - (idx : ℚ)))
    ∧ (idx : ℤ) + pyInt (p / 100 * ((n : ℚ) - (idx : ℚ))) < (n : ℤ) := by
  have hcast : (n : ℚ) - (idx : ℚ) = ((n - idx : ℕ) : ℚ) := by
    rw [Nat.cast_sub (le_of_lt hidx)]
  constructor
  · have := frac_index_nonneg (r := (n : ℚ) - (idx : ℚ)) hp0
      (by rw [hcast]; positivity)
    omega
  · have hlt := frac_index_lt (n - idx) hp0 hp99 (by omega)
    rw [← hcast] at hlt
    omega

/-- Claim C10: for a non-empty StatList and percentiles in [0, 99], every
index get_percentiles computes is within the bounds of the value list —
under either setting of only_numeric it returns exactly one stored value
per requested percentile — and when only_numeric is set but every stored
value is missing (None or the empty string), the leading-blank skip
resets to zero and the result coincides with the only_numeric=False
result over the full list. -/
theorem get_percentiles_safe (s : StatList) (ps : List ℚ) (b : Bool)
    (hn : 0 < s.krs.length)
    (hps : ∀ p ∈ ps, 0 ≤ p ∧ p ≤ 99) :
    (∃ vs, (s.get_percentiles ps b).1 = Option.some vs
        ∧ vs.length = ps.length)
    ∧ ((∀ kr ∈ s.krs, missingVal kr.val = true) →
        (s.get_percentiles ps true).1 = (s.get_percentiles ps false).1) := by
  have hlen : (s.sort_if_needed).krs.length = s.krs.length :=
    (StatList.sort_if_needed_perm s).length_eq
  set t := s.sort_if_needed with ht
  set vals := t.krs.map (fun kr => kr.val) with hvals
  have hvlen : vals.length = s.krs.length := by
    rw [hvals, List.length_map, hlen]
  have hcount : t.get_count = s.krs.length := hlen
  set idx0 := (vals.takeWhile missingVal).length with hidx0def
  have hidx0le : idx0 ≤ s.krs.length := by
    rw [hidx0def, ← hvlen]
    exact (List.takeWhile_prefix missingVal).length_le
  set idx := if idx0 = t.get_count then 0 else idx0 with hidxdef
  have hidxlt : idx < t.get_count := by
    rw [hidxdef]
    by_cases h : idx0 = t.get_count
    · rw [if_pos h]
      omega
    · rw [if_neg h]
      omega
  constructor
  · -- every computed index selects a value
    have key : ∀ (il : List ℤ), (∀ i ∈ il, 0 ≤ i ∧ i < (vals.length : ℤ)) →
        ∃ vs, il.mapM (fun i => pyGet vals i) = Option.some vs
          ∧ vs.length = il.length := by
      intro il hb
      exact mapM_option_isSome _ il
        (fun i hi => pyGet_isSome vals i (hb i hi).1 (hb i hi).2)
    simp only [StatList.get_percentiles]
    rw [← ht, ← hvals, ← hidx0def, ← hidxdef]
    cases b with
    | false =>
      simp only [Bool.false_eq_true, if_false]
      obtain ⟨vs, hvs, hl⟩ := key (ps.map (fun x => pyInt (x / 100 * (t.get_count : ℚ))))
        (by
          simp only [List.mem_map]
          rintro i ⟨x, hx, rfl⟩
          obtain ⟨hx0, hx99⟩ := hps x hx
          refine ⟨frac_index_nonneg hx0 (by positivity), ?_⟩
          rw [hvlen, ← hcount]
          exact frac_index_lt t.get_count hx0 hx99 (by omega))
      exact ⟨vs, hvs, by rw [hl, List.length_map]⟩
    | true =>
      simp only [if_true]
      obtain ⟨vs, hvs, hl⟩ := key (ps.map (fun x =>
          (idx : ℤ) + pyInt (x / 100 * ((t.get_count : ℚ) - (idx : ℚ)))))
        (by
          simp only [List.mem_map]
          rintro i ⟨x, hx, rfl⟩
          obtain ⟨hx0, hx99⟩ := hps x hx
          have := percentile_idx_bound t.get_count idx hx0 hx99 hidxlt
          rw [hvlen, ← hcount]
          exact this)
      exact ⟨vs, hvs, by rw [hl, List.length_map]⟩
  · -- all values missing: the skip resets and the two settings agree
    intro hall
    have hallv : ∀ v ∈ vals, missingVal v = true := by
      rw [hvals]
      intro v hv
      obtain ⟨kr, hkr, rfl⟩ := List.mem_map.mp hv
      exact hall kr ((StatList.sort_if_needed_perm s).mem_iff.mp hkr)
    have htake : vals.takeWhile missingVal = vals :=
      List.takeWhile_eq_self_iff.mpr hallv
    have hidx0 : idx0 = t.get_count := by
      rw [hidx0def, htake, hvlen, hcount]
    have hidxz : idx = 0 := by
      rw [hidxdef, if_pos hidx0]
    simp only [StatList.get_percentiles]
    rw [← ht, ← hvals, ← hidx0def, ← hidxdef]
    simp only [Bool.false_eq_true, if_false, if_true]
    congr 1
    apply List.map_congr_left
    intro x _
    rw [hidxz]
    push_cast
    ring_nf

/-- Claim C7: for a non-empty StatList and a percentile p in [1, 99],
get_percentiles with only_numeric False reads the records sorted
ascending by value and selects the element at index floor(p/100 * n),
which is within bounds; the returned list is exactly that one value. -/
theorem get_percentiles_selects_floor (s : StatList) (p : ℚ)
    (hn : 0 < s.krs.length) (hp1 : 1 ≤ p) (hp99 : p ≤ 99)
    (hinv : StatList.Inv s) :
    StatList.sortedByVal s.sort_if_needed.krs
    ∧ (pyInt (p / 100 * (s.krs.length : ℚ))).toNat < s.krs.length
    ∧ ∃ v, (s.sort_if_needed.krs.map (fun kr => kr.val))[(pyInt
          (p / 100 * (s.krs.length : ℚ))).toNat]? = Option.some v
        ∧ (s.get_percentiles [p] false).1 = Option.some [v] := by
  have hlen : (s.sort_if_needed).krs.length = s.krs.length :=
    (StatList.sort_if_needed_perm s).length_eq
  set t := s.sort_if_needed with ht
  set vals := t.krs.map (fun kr => kr.val) with hvals
  have hvlen : vals.length = s.krs.length := by
    rw [hvals, List.length_map, hlen]
  have hcount : t.get_count = s.krs.length := hlen
  set i := pyInt (p / 100 * (s.krs.length : ℚ)) with hi
  have hi0 : 0 ≤ i := frac_index_nonneg (by linarith) (by positivity)
  have hilt : i < (s.krs.length : ℤ) :=
    frac_index_lt s.krs.length (by linarith) hp99 hn
  have hlt : i.toNat < s.krs.length := by omega
  have hvlt : i.toNat < vals.length := by omega
  refine ⟨(StatList.sort_if_needed_sorted s hinv).2, hlt,
    vals.get ⟨i.toNat, hvlt⟩, by rw [List.getElem?_eq_getElem hvlt]; rfl, ?_⟩
  show (StatList.get_percentiles s [p] false).1 = _
  simp only [StatList.get_percentiles]
  rw [← ht, ← hvals]
  simp only [Bool.false_eq_true, if_false, List.map_cons, List.map_nil]
  rw [hcount, ← hi]
  rw [List.mapM_cons, List.mapM_nil]
  rw [pyGet, if_pos hi0, List.getElem?_eq_getElem hvlt]
  rfl

/-- Claim C7 witness: on the four stored values 1, 2, 3, 4 the median
percentile 50 selects index floor(0.5 * 4) = 2 of the sorted values,
returning the value 3. -/
theorem get_percentiles_selects_floor_witness :
    (StatList.sortedByVal (StatList.sort_if_needed
        { krs := [⟨[], PyVal.num 1, []⟩, ⟨[], PyVal.num 2, []⟩,
                  ⟨[], PyVal.num 3, []⟩, ⟨[], PyVal.num 4, []⟩],
          is_sorted := false }).krs
      ∧ (pyInt ((50 : ℚ) / 100 * ((4 : ℕ) : ℚ))).toNat < 4
      ∧ ∃ v, ((StatList.sort_if_needed
            { krs := [⟨[], PyVal.num 1, []⟩, ⟨[], PyVal.num 2, []⟩,
                      ⟨[], PyVal.num 3, []⟩, ⟨[], PyVal.num 4, []⟩],
              is_sorted := false }).krs.map (fun kr => kr.val))[(pyInt
            ((50 : ℚ) / 100 * ((4 : ℕ) : ℚ))).toNat]? = Option.some v
          ∧ (StatList.get_percentiles
              { krs := [⟨[], PyVal.num 1, []⟩, ⟨[], PyVal.num 2, []⟩,
                        ⟨[], PyVal.num 3, []⟩, ⟨[], PyVal.num 4, []⟩],
                is_sorted := false } [50] false).1 = Option.some [v])
    ∧ (StatList.get_percentiles
        { krs := [⟨[], PyVal.num 1, []⟩, ⟨[], PyVal.num 2, []⟩,
                  ⟨[], PyVal.num 3, []⟩, ⟨[], PyVal.num 4, []⟩],
          is_sorted := false } [50] false).1 = Option.some [PyVal.num 3] := by
  constructor
  · exact get_percentiles_selects_floor
      { krs := [⟨[], PyVal.num 1, []⟩, ⟨[], PyVal.num 2, []⟩,
                ⟨[], PyVal.num 3, []⟩, ⟨[], PyVal.num 4, []⟩],
        is_sorted := false } 50
      (by decide) (by norm_num) (by norm_num)
      (fun hyp => absurd hyp Bool.false_ne_true)
  · simp only [StatList.get_percentiles, StatList.get_count]
    norm_num
    rw [show (StatList.sort_if_needed
        { krs := [⟨[], PyVal.num 1, []⟩, ⟨[], PyVal.num 2, []⟩,
                  ⟨[], PyVal.num 3, []⟩, ⟨[], PyVal.num 4, []⟩],
          is_sorted := false }) =
        { krs := [⟨[], PyVal.num 1, []⟩, ⟨[], PyVal.num 2, []⟩,
                  ⟨[], PyVal.num 3, []⟩, ⟨[], PyVal.num 4, []⟩],
          is_sorted := true } from by decide]
    norm_num [pyInt, pyGet, List.mapM.loop]
    decide

/-- Virtual multiplicity during the get_mode scan: the current run of
val has length count, and the suffix xs is still to be processed. -/
def vcount (val : PyVal) (count : ℤ) (xs : List PyVal) (w : PyVal) : ℤ :=
  (if w = val then count else 0) + (xs.count w : ℤ)

theorem PyVal.none_le (v : PyVal) : PyVal.none ≤ v := rfl

theorem PyVal.le_refl (v : PyVal) : v ≤ v := PyVal.ble_refl v

theorem modeLoop_go (xs : List PyVal) (val : PyVal) (count mc : ℤ) (mv : PyVal)
    (hsort : xs.Pairwise (· ≤ ·))
    (hmin : ∀ x ∈ xs, val ≤ x)
    (hcount : 1 ≤ count) :
    (¬ (∃ w, (w = val ∨ w ∈ xs) ∧ mc < vcount val count xs w) →
        StatList.modeLoop xs val count mc mv = (mv, mc))
    ∧ ((∃ w, (w = val ∨ w ∈ xs) ∧ mc < vcount val count xs w) →
        ((StatList.modeLoop xs val count mc mv).1 = val
            ∨ (StatList.modeLoop xs val count mc mv).1 ∈ xs)
        ∧ (StatList.modeLoop xs val count mc mv).2
            = vcount val count xs (StatList.modeLoop xs val count mc mv).1
        ∧ (∀ w, (w = val ∨ w ∈ xs) →
            vcount val count xs w ≤ (StatList.modeLoop xs val count mc mv).2)
        ∧ (∀ w, (w = val ∨ w ∈ xs) →
            vcount val count xs w = (StatList.modeLoop xs val count mc mv).2 →
            (StatList.modeLoop xs val count mc mv).1 ≤ w)) := by
  induction xs generalizing val count mc mv with
  | nil =>
    have unfold0 : StatList.modeLoop [] val count mc mv
        = if mc < count then (val, count) else (mv, mc) := rfl
    constructor
    · intro hnex
      have hnlt : ¬ mc < count := fun hlt =>
        hnex ⟨val, Or.inl rfl, by simp [vcount]; omega⟩
      rw [unfold0, if_neg hnlt]
    · rintro ⟨w, hw, hgt⟩
      have hwv : w = val := by
        rcases hw with rfl | hw
        · rfl
        · simp at hw
      subst hwv
      have hlt : mc < count := by
        simp [vcount] at hgt
        omega
      rw [unfold0, if_pos hlt]
      refine ⟨Or.inl rfl, by simp [vcount], ?_, ?_⟩
      · rintro w (rfl | hw)
        · simp [vcount]
        · simp at hw
      · rintro w (rfl | hw)
        · intro _
          exact PyVal.le_refl w
        · simp at hw
  | cons x rest ih =>
    have hrest : rest.Pairwise (· ≤ ·) := (List.pairwise_cons.mp hsort).2
    have hxrest : ∀ y ∈ rest, x ≤ y := (List.pairwise_cons.mp hsort).1
    have hxmin : ∀ y ∈ x :: rest, x ≤ y := by
      intro y hy
      rcases List.mem_cons.mp hy with rfl | hy2
      · exact PyVal.le_refl y
      · exact hxrest y hy2
    have unfold1 : StatList.modeLoop (x :: rest) val count mc mv
        = if x ≠ val then
            (if mc < count then StatList.modeLoop rest x 1 count val
             else StatList.modeLoop rest x 1 mc mv)
          else StatList.modeLoop rest val (count + 1) mc mv := rfl
    by_cases hx : x = val
    · -- the head continues the current run
      subst hx
      have step : StatList.modeLoop (x :: rest) x count mc mv
          = StatList.modeLoop rest x (count + 1) mc mv := by
        rw [unfold1, if_neg (fun h => h rfl)]
      have hvc : ∀ w, vcount x (count + 1) rest w = vcount x count (x :: rest) w := by
        intro w
        unfold vcount
        rw [List.count_cons]
        by_cases hw : w = x
        · subst hw
          simp
          try push_cast
          try omega
        · have hw2 : ¬ x = w := fun h => hw h.symm
          simp [hw, hw2]
          try push_cast
          try omega
      have hM : ∀ w : PyVal, (w = x ∨ w ∈ x :: rest) ↔ (w = x ∨ w ∈ rest) := by
        intro w
        rw [List.mem_cons]
        tauto
      rw [step]
      have ihx := ih x (count + 1) mc mv hrest
        (fun y hy => hmin y (List.mem_cons_of_mem x hy)) (by omega)
      constructor
      · intro hnex
        refine ihx.1 ?_
        rintro ⟨w, hw, hgt⟩
        rw [hvc] at hgt
        exact hnex ⟨w, (hM w).mpr hw, hgt⟩
      · intro hex
        obtain ⟨w, hw, hgt⟩ := hex
        rw [← hvc] at hgt
        obtain ⟨m1, m2, m3, m4⟩ := ihx.2 ⟨w, (hM w).mp hw, hgt⟩
        refine ⟨(hM _).mpr m1, by rw [← hvc, m2], ?_, ?_⟩
        · intro w hw
          rw [← hvc]
          exact m3 w ((hM w).mp hw)
        · intro w hw heq
          rw [← hvc] at heq
          exact m4 w ((hM w).mp hw) heq
    · -- the head starts a new run
      have hvx : val ≤ x := hmin x (List.mem_cons_self x rest)
      have hvnotin : val ∉ x :: rest := by
        intro hmem
        exact hx (PyVal.ble_antisymm (hxmin val hmem) hvx)
      have hcnt0 : (x :: rest).count val = 0 :=
        List.count_eq_zero.mpr hvnotin
      have f2 : vcount val count (x :: rest) val = count := by
        simp [vcount, hcnt0]
      have f1 : ∀ w, w ≠ val → vcount x 1 rest w = vcount val count (x :: rest) w := by
        intro w hw
        unfold vcount
        rw [List.count_cons]
        by_cases hwx : w = x
        · have hx2 : ¬ val = x := fun h => hx h.symm
          simp [hwx, hw, hx, hx2]
          try push_cast
          try omega
        · have hwx2 : ¬ x = w := fun h => hwx h.symm
          have hwv2 : ¬ val = w := fun h => hw h.symm
          simp [hw, hwx, hwx2, hwv2]
          try push_cast
          try omega
      have f6 : ∀ w : PyVal, (w = x ∨ w ∈ rest) → w ≠ val := by
        rintro w (rfl | hw) h
        · exact hx h
        · exact hvnotin (h ▸ List.mem_cons_of_mem x hw)
      have f3 : ∀ w : PyVal, (w = val ∨ w ∈ x :: rest) ↔ (w = val ∨ (w = x ∨ w ∈ rest)) := by
        intro w
        rw [List.mem_cons]
      have f5 : ∀ w : PyVal, (w = x ∨ w ∈ rest) → x ≤ w := by
        intro w hw
        exact hxmin w (List.mem_cons.mpr hw)
      by_cases hflush : mc < count
      · -- the closed run of val becomes the best so far
        have step : StatList.modeLoop (x :: rest) val count mc mv
            = StatList.modeLoop rest x 1 count val := by
          rw [unfold1, if_pos hx, if_pos hflush]
        rw [step]
        have ihx := ih x 1 count val hrest hxrest (by omega)
        have hexc : ∃ w, (w = val ∨ w ∈ x :: rest) ∧ mc < vcount val count (x :: rest) w :=
          ⟨val, Or.inl rfl, by rw [f2]; exact hflush⟩
        constructor
        · intro hnex
          exact absurd hexc hnex
        · intro _
          by_cases hex2 : ∃ w, (w = x ∨ w ∈ rest) ∧ count < vcount x 1 rest w
          · obtain ⟨m1, m2, m3, m4⟩ := ihx.2 hex2
            obtain ⟨w0, hw0, hgt0⟩ := hex2
            have hr2 : count < (StatList.modeLoop rest x 1 count val).2 :=
              lt_of_lt_of_le hgt0 (m3 w0 hw0)
            have hr1ne : (StatList.modeLoop rest x 1 count val).1 ≠ val := f6 _ m1
            refine ⟨Or.inr (List.mem_cons.mpr m1), ?_, ?_, ?_⟩
            · rw [← f1 _ hr1ne, m2]
            · intro w hw
              rcases (f3 w).mp hw with rfl | hw2
              · rw [f2]
                omega
              · rw [← f1 w (f6 w hw2)]
                exact m3 w hw2
            · intro w hw heq
              rcases (f3 w).mp hw with rfl | hw2
              · rw [f2] at heq
                omega
              · rw [← f1 w (f6 w hw2)] at heq
                exact m4 w hw2 heq
          · have heq := ihx.1 hex2
            rw [heq]
            refine ⟨Or.inl rfl, by rw [f2], ?_, ?_⟩
            · intro w hw
              rcases (f3 w).mp hw with rfl | hw2
              · rw [f2]
              · rw [← f1 w (f6 w hw2)]
                have h2 := not_exists.mp hex2 w
                rw [not_and] at h2
                have h3 := h2 hw2
                omega
            · intro w hw _
              rcases (f3 w).mp hw with rfl | hw2
              · exact PyVal.le_refl _
              · exact PyVal.ble_trans hvx (f5 w hw2)
      · -- the closed run of val is not long enough
        have step : StatList.modeLoop (x :: rest) val count mc mv
            = StatList.modeLoop rest x 1 mc mv := by
          rw [unfold1, if_pos hx, if_neg hflush]
        rw [step]
        have ihx := ih x 1 mc mv hrest hxrest (by omega)
        have hiff : (∃ w, (w = val ∨ w ∈ x :: rest) ∧ mc < vcount val count (x :: rest) w)
            ↔ (∃ w, (w = x ∨ w ∈ rest) ∧ mc < vcount x 1 rest w) := by
          constructor
          · rintro ⟨w, hw, hgt⟩
            rcases (f3 w).mp hw with rfl | hw2
            · rw [f2] at hgt
              omega
            · rw [← f1 w (f6 w hw2)] at hgt
              exact ⟨w, hw2, hgt⟩
          · rintro ⟨w, hw, hgt⟩
            rw [f1 w (f6 w hw)] at hgt
            exact ⟨w, (f3 w).mpr (Or.inr hw), hgt⟩
        constructor
        · intro hnex
          exact ihx.1 (fun hex2 => hnex (hiff.mpr hex2))
        · intro hex
          have hex2 := hiff.mp hex
          obtain ⟨m1, m2, m3, m4⟩ := ihx.2 hex2
          obtain ⟨w0, hw0, hgt0⟩ := hex2
          have hr2 : mc < (StatList.modeLoop rest x 1 mc mv).2 :=
            lt_of_lt_of_le hgt0 (m3 w0 hw0)
          have hr1ne : (StatList.modeLoop rest x 1 mc mv).1 ≠ val := f6 _ m1
          refine ⟨Or.inr (List.mem_cons.mpr m1), ?_, ?_, ?_⟩
          · rw [← f1 _ hr1ne, m2]
          · intro w hw
            rcases (f3 w).mp hw with rfl | hw2
            · rw [f2]
              omega
            · rw [← f1 w (f6 w hw2)]
              exact m3 w hw2
          · intro w hw heq
            rcases (f3 w).mp hw with rfl | hw2
            · rw [f2] at heq
              omega
            · rw [← f1 w (f6 w hw2)] at heq
              exact m4 w hw2 heq

theorem vcount_cons_eq (x : PyVal) (rest : List PyVal) (w : PyVal) :
    vcount x 1 rest w = (((x :: rest).count w : ℕ) : ℤ) := by
  unfold vcount
  rw [List.count_cons]
  by_cases hw : w = x
  · simp [hw]
    try omega
  · have hw2 : ¬ x = w := fun h => hw h.symm
    simp [hw, hw2]

/-- Claim C6: for every non-empty StatList whose state satisfies the
lazy-sort invariant, get_mode returns a pair (v, c) where v is a stored
value, c is the number of occurrences of v, no value occurs more often
than c times, and every value occurring exactly c times is at least v:
the most frequent value, with ties broken toward the smallest value. -/
theorem get_mode_most_frequent (s : StatList) (hne : s.krs ≠ [])
    (hinv : StatList.Inv s) :
    (StatList.get_mode s).1.1 ∈ s.krs.map (fun kr => kr.val)
    ∧ (StatList.get_mode s).1.2
        = (((s.krs.map (fun kr => kr.val)).count (StatList.get_mode s).1.1 : ℕ) : ℤ)
    ∧ (∀ w ∈ s.krs.map (fun kr => kr.val),
        (((s.krs.map (fun kr => kr.val)).count w : ℕ) : ℤ)
          ≤ (StatList.get_mode s).1.2)
    ∧ (∀ w ∈ s.krs.map (fun kr => kr.val),
        (((s.krs.map (fun kr => kr.val)).count w : ℕ) : ℤ)
            = (StatList.get_mode s).1.2 →
        (StatList.get_mode s).1.1 ≤ w) := by
  have hperm0 : List.Perm ((s.sort_if_needed).krs.map (fun kr => kr.val))
      (s.krs.map (fun kr => kr.val)) :=
    (StatList.sort_if_needed_perm s).map _
  have hsorted : ((s.sort_if_needed).krs.map (fun kr => kr.val)).Pairwise
      (· ≤ ·) :=
    List.Pairwise.map _ (fun a b h => h)
      (StatList.sort_if_needed_sorted s hinv).2
  have hunfold : (StatList.get_mode s).1
      = StatList.modeLoop ((s.sort_if_needed).krs.map (fun kr => kr.val))
          PyVal.none 0 (-1) PyVal.none := rfl
  have hLne : (s.sort_if_needed).krs.map (fun kr => kr.val) ≠ [] := by
    intro h
    apply hne
    have hlen := hperm0.length_eq
    rw [h] at hlen
    simp only [List.length_nil, List.length_map] at hlen
    exact List.eq_nil_of_length_eq_zero hlen.symm
  obtain ⟨x, rest, hxr⟩ := List.exists_cons_of_ne_nil hLne
  rw [hxr] at hperm0 hsorted hunfold
  have hrest : rest.Pairwise (· ≤ ·) := (List.pairwise_cons.mp hsorted).2
  have hxrest : ∀ y ∈ rest, x ≤ y := (List.pairwise_cons.mp hsorted).1
  -- run the invariant lemma after one unfolding of the loop
  have main : ((StatList.get_mode s).1.1 ∈ x :: rest)
      ∧ (StatList.get_mode s).1.2
          = (((x :: rest).count (StatList.get_mode s).1.1 : ℕ) : ℤ)
      ∧ (∀ w ∈ x :: rest,
          (((x :: rest).count w : ℕ) : ℤ) ≤ (StatList.get_mode s).1.2)
      ∧ (∀ w ∈ x :: rest,
          (((x :: rest).count w : ℕ) : ℤ) = (StatList.get_mode s).1.2 →
          (StatList.get_mode s).1.1 ≤ w) := by
    by_cases hxnone : x = PyVal.none
    · -- the sentinel merges with a leading run of None values
      have hstep : StatList.modeLoop (x :: rest) PyVal.none 0 (-1) PyVal.none
          = StatList.modeLoop rest PyVal.none 1 (-1) PyVal.none := by
        have h0 : StatList.modeLoop (x :: rest) PyVal.none 0 (-1) PyVal.none
            = if x ≠ PyVal.none then
                (if (-1 : ℤ) < 0 then StatList.modeLoop rest x 1 0 PyVal.none
                 else StatList.modeLoop rest x 1 (-1) PyVal.none)
              else StatList.modeLoop rest PyVal.none (0 + 1) (-1) PyVal.none := rfl
        rw [h0, if_neg (fun h => h hxnone)]
        norm_num
      have hgo := modeLoop_go rest PyVal.none 1 (-1) PyVal.none hrest
        (fun y _ => PyVal.none_le y) (by omega)
      have hvcc : ∀ w, vcount PyVal.none 1 rest w
          = (((x :: rest).count w : ℕ) : ℤ) := by
        intro w
        rw [hxnone]
        exact vcount_cons_eq PyVal.none rest w
      have hMc : ∀ w : PyVal, (w = PyVal.none ∨ w ∈ rest) ↔ w ∈ x :: rest := by
        intro w
        rw [hxnone, List.mem_cons]
      have hex : ∃ w, (w = PyVal.none ∨ w ∈ rest)
          ∧ (-1 : ℤ) < vcount PyVal.none 1 rest w := by
        refine ⟨PyVal.none, Or.inl rfl, ?_⟩
        unfold vcount
        simp
        omega
      obtain ⟨m1, m2, m3, m4⟩ := hgo.2 hex
      rw [hunfold, hstep]
      refine ⟨(hMc _).mp m1, by rw [m2, hvcc], ?_, ?_⟩
      · intro w hw
        rw [← hvcc]
        exact m3 w ((hMc w).mpr hw)
      · intro w hw heq
        rw [← hvcc] at heq
        exact m4 w ((hMc w).mpr hw) heq
    · -- the sentinel run is flushed immediately
      have hstep : StatList.modeLoop (x :: rest) PyVal.none 0 (-1) PyVal.none
          = StatList.modeLoop rest x 1 0 PyVal.none := by
        have h0 : StatList.modeLoop (x :: rest) PyVal.none 0 (-1) PyVal.none
            = if x ≠ PyVal.none then
                (if (-1 : ℤ) < 0 then StatList.modeLoop rest x 1 0 PyVal.none
                 else StatList.modeLoop rest x 1 (-1) PyVal.none)
              else StatList.modeLoop rest PyVal.none (0 + 1) (-1) PyVal.none := rfl
        rw [h0, if_pos hxnone, if_pos (by omega)]
      have hgo := modeLoop_go rest x 1 0 PyVal.none hrest hxrest (by omega)
      have hMc : ∀ w : PyVal, (w = x ∨ w ∈ rest) ↔ w ∈ x :: rest := by
        intro w
        rw [List.mem_cons]
      have hex : ∃ w, (w = x ∨ w ∈ rest) ∧ (0 : ℤ) < vcount x 1 rest w := by
        refine ⟨x, Or.inl rfl, ?_⟩
        unfold vcount
        simp
        omega
      obtain ⟨m1, m2, m3, m4⟩ := hgo.2 hex
      rw [hunfold, hstep]
      refine ⟨(hMc _).mp m1, by rw [m2, vcount_cons_eq], ?_, ?_⟩
      · intro w hw
        rw [← vcount_cons_eq]
        exact m3 w ((hMc w).mpr hw)
      · intro w hw heq
        rw [← vcount_cons_eq] at heq
        exact m4 w ((hMc w).mpr hw) heq
  obtain ⟨g1, g2, g3, g4⟩ := main
  refine ⟨hperm0.mem_iff.mp g1, ?_, ?_, ?_⟩
  · rw [g2]
    norm_cast
    exact hperm0.count_eq _
  · intro w hw
    have := g3 w (hperm0.mem_iff.mpr hw)
    rw [hperm0.count_eq] at this
    exact this
  · intro w hw heq
    refine g4 w (hperm0.mem_iff.mpr hw) ?_
    rw [hperm0.count_eq]
    exact heq

/-- The example record list [5, 5, 3, 3] used by the spec for the mode
tie-break. -/
def modeExample : StatList :=
  { krs := [⟨[], PyVal.num 5, []⟩, ⟨[], PyVal.num 5, []⟩,
            ⟨[], PyVal.num 3, []⟩, ⟨[], PyVal.num 3, []⟩],
    is_sorted := false }

/-- Claim C6 witness: on the stored values [5, 5, 3, 3] the two values
tie at frequency 2 and get_mode returns (3, 2), the smallest of the tied
values. -/
theorem get_mode_most_frequent_witness :
    (StatList.get_mode modeExample).1 = (PyVal.num 3, 2)
    ∧ (StatList.get_mode modeExample).1.1
        ∈ modeExample.krs.map (fun kr => kr.val) :=
  ⟨by decide,
   (get_mode_most_frequent modeExample (by decide)
      (fun hyp => absurd hyp Bool.false_ne_true)).1⟩

/-- A record list whose values are all missing (None or the empty
string), for exercising the only_numeric reset. -/
def missingExample : StatList :=
  { krs := [⟨[], PyVal.none, []⟩, ⟨[], PyVal.str "", []⟩],
    is_sorted := false }

/-- Claim C10 witness: on two records whose values are both missing, the
median query with only_numeric set returns exactly one value and agrees
with the only_numeric=False result over the full list. -/
theorem get_percentiles_safe_witness :
    (∃ vs, (StatList.get_percentiles missingExample [50] true).1
        = Option.some vs ∧ vs.length = [(50 : ℚ)].length)
    ∧ ((∀ kr ∈ missingExample.krs, missingVal kr.val = true) →
        (StatList.get_percentiles missingExample [50] true).1
          = (StatList.get_percentiles missingExample [50] false).1) :=
  get_percentiles_safe missingExample [50] true (by decide)
    (by
      intro p hp
      rw [List.mem_singleton] at hp
      subst hp
      norm_num)

theorem mem_pyProduct {α : Type} : ∀ (Ls : List (List α)) (t : List α),
    t ∈ KeyedFile.pyProduct Ls ↔ List.Forall₂ (fun L x => x ∈ L) Ls t
  | [], t => by
    simp only [KeyedFile.pyProduct, List.mem_singleton,
      List.forall₂_nil_left_iff]
  | L :: Ls, t => by
    simp only [KeyedFile.pyProduct, List.mem_flatMap, List.mem_map]
    constructor
    · rintro ⟨x, hx, t2, ht2, rfl⟩
      exact List.Forall₂.cons hx ((mem_pyProduct Ls t2).mp ht2)
    · intro h
      cases h with
      | cons hx ht =>
        exact ⟨_, hx, _, (mem_pyProduct Ls _).mpr ht, rfl⟩

theorem forall₂_append_split {α β : Type} {R : α → β → Prop} :
    ∀ (A B : List α) (t : List β),
    List.Forall₂ R (A ++ B) t ↔
      ∃ t1 t2, t = t1 ++ t2 ∧ List.Forall₂ R A t1 ∧ List.Forall₂ R B t2
  | [], B, t => by
    simp only [List.nil_append]
    constructor
    · intro h
      exact ⟨[], t, rfl, List.Forall₂.nil, h⟩
    · rintro ⟨t1, t2, rfl, h1, h2⟩
      rw [List.forall₂_nil_left_iff] at h1
      subst h1
      simpa using h2
  | a :: A, B, t => by
    constructor
    · intro h
      cases h with
      | cons hx ht =>
        obtain ⟨t1, t2, rfl, h1, h2⟩ := (forall₂_append_split A B _).mp ht
        exact ⟨_ :: t1, t2, rfl, List.Forall₂.cons hx h1, h2⟩
    · rintro ⟨t1, t2, rfl, h1, h2⟩
      cases h1 with
      | cons hx h1t =>
        exact List.Forall₂.cons hx
          ((forall₂_append_split A B _).mpr ⟨_, t2, rfl, h1t, h2⟩)

/-- Stated from the claim, for the refinement comparison: for a non-date
key field the candidate set is the exact value, then the empty-string
wildcard if the exact value is non-empty, then the backoff alternates
listed for that value (if any). -/
def specFieldCandidates (b : Backoff) (k : String) : List String :=
  [k] ++ (if k ≠ "" then [""] else []) ++ ((b k).getD [])

theorem zipWith_eq_map_zip {α β γ : Type} (g : α → β → γ) :
    ∀ (l1 : List α) (l2 : List β),
    List.zipWith g l1 l2 = (l1.zip l2).map (fun p => g p.1 p.2)
  | [], _ => rfl
  | _ :: _, [] => rfl
  | a :: l1, b :: l2 => by
    simp only [List.zipWith_cons_cons, List.zip_cons_cons, List.map_cons]
    rw [zipWith_eq_map_zip g l1 l2]

theorem keyCandidates_eq_spec (b : Backoff) (k : String) :
    KeyedFile.keyCandidates b k = specFieldCandidates b k := by
  unfold KeyedFile.keyCandidates specFieldCandidates
  cases hb : b k with
  | none => by_cases hk : k = "" <;> simp [hb, hk]
  | some alts => by_cases hk : k = "" <;> simp [hb, hk]

/-- Claim C1: for every record, all_keysets is exactly the cartesian
product over all key fields of the per-field candidate lists, where a
non-date key field contributes the exact value, the wildcard when the
value is non-empty, and the backoff alternates for the value, while a
date key field contributes the DateWindower (valid_months) output; the
date slots follow the non-date key slots in every produced tuple. -/
theorem all_keysets_cartesian (kf : KeyedFile) (kr : KeyedRecord) :
    kf.all_keysets kr
      = KeyedFile.pyProduct
          (List.zipWith (fun k b => specFieldCandidates b k)
              kr.keys kf.backoffs
            ++ kr.dates.map (fun d => kf.valid_months d))
    ∧ (∀ ks, ks ∈ kf.all_keysets kr ↔
        ∃ kparts dparts, ks = kparts ++ dparts
          ∧ List.Forall₂ (fun (kb : String × Backoff) x =>
              x ∈ specFieldCandidates kb.2 kb.1)
              (kr.keys.zip kf.backoffs) kparts
          ∧ List.Forall₂ (fun d x => x ∈ kf.valid_months d)
              kr.dates dparts) := by
  have heq : kf.all_keysets kr
      = KeyedFile.pyProduct
          (List.zipWith (fun k b => specFieldCandidates b k)
              kr.keys kf.backoffs
            ++ kr.dates.map (fun d => kf.valid_months d)) := by
    unfold KeyedFile.all_keysets
    simp only [keyCandidates_eq_spec]
  refine ⟨heq, fun ks => ?_⟩
  rw [heq, mem_pyProduct, forall₂_append_split]
  constructor
  · rintro ⟨t1, t2, rfl, h1, h2⟩
    refine ⟨t1, t2, rfl, ?_, ?_⟩
    · rw [zipWith_eq_map_zip, List.forall₂_map_left_iff] at h1
      exact h1
    · rw [List.forall₂_map_left_iff] at h2
      exact h2
  · rintro ⟨t1, t2, rfl, h1, h2⟩
    refine ⟨t1, t2, rfl, ?_, ?_⟩
    · rw [zipWith_eq_map_zip, List.forall₂_map_left_iff]
      exact h1
    · rw [List.forall₂_map_left_iff]
      exact h2

theorem sum_map_ite_count {α : Type} [DecidableEq α] (y : α) (c : ℕ) :
    ∀ (L : List α), (L.map (fun x => if x = y then c else 0)).sum = L.count y * c
  | [] => by simp
  | x :: L => by
    rw [List.map_cons, List.sum_cons, sum_map_ite_count y c L, List.count_cons]
    by_cases hx : x = y
    · subst hx
      rw [if_pos rfl, if_pos (beq_self_eq_true x)]
      ring
    · rw [if_neg hx, if_neg (fun h => hx (beq_iff_eq.mp h))]
      ring

theorem count_map_cons {α : Type} [DecidableEq α] (x : α) :
    ∀ (P : List (List α)) (t : List α),
    (P.map (fun t2 => x :: t2)).count (x :: t) = P.count t
  | [], _ => rfl
  | t2 :: P, t => by
    rw [List.map_cons, List.count_cons, List.count_cons, count_map_cons x P t]
    by_cases h : t = t2 <;> simp [h]

theorem count_pyProduct {α : Type} [DecidableEq α] :
    ∀ (Ls : List (List α)) (t : List α),
    (KeyedFile.pyProduct Ls).count t
      = if t.length = Ls.length
        then (List.zipWith (fun L x => L.count x) Ls t).prod
        else 0
  | [], [] => by
    rw [show KeyedFile.pyProduct ([] : List (List α)) = [[]] from rfl]
    simp
  | [], x :: t => by
    rw [show KeyedFile.pyProduct ([] : List (List α)) = [[]] from rfl]
    simp
  | L :: Ls, [] => by
    have hstep : KeyedFile.pyProduct (L :: Ls)
        = L.flatMap (fun x => (KeyedFile.pyProduct Ls).map (fun t2 => x :: t2)) := rfl
    rw [hstep, List.count_flatMap, if_neg (by simp)]
    apply List.sum_eq_zero
    intro n hn
    obtain ⟨x, hx, rfl⟩ := List.mem_map.mp hn
    rw [Function.comp_apply, List.count_eq_zero]
    simp
  | L :: Ls, y :: t => by
    have hstep : KeyedFile.pyProduct (L :: Ls)
        = L.flatMap (fun x => (KeyedFile.pyProduct Ls).map (fun t2 => x :: t2)) := rfl
    rw [hstep, List.count_flatMap]
    have hcnt : ∀ x : α,
        (((KeyedFile.pyProduct Ls).map (fun t2 => x :: t2)).count (y :: t))
          = if x = y then (KeyedFile.pyProduct Ls).count t else 0 := by
      intro x
      by_cases hx : x = y
      · subst hx
        rw [if_pos rfl]
        exact count_map_cons x (KeyedFile.pyProduct Ls) t
      · rw [if_neg hx, List.count_eq_zero]
        simp only [List.mem_map, not_exists, not_and]
        intro t2 _ hc
        exact hx (List.cons.inj hc).1
    have hmap : (L.map ((fun l2 => List.count (y :: t) l2)
          ∘ (fun x => (KeyedFile.pyProduct Ls).map (fun t2 => x :: t2))))
        = L.map (fun x => if x = y then (KeyedFile.pyProduct Ls).count t else 0) := by
      apply List.map_congr_left
      intro x _
      exact hcnt x
    rw [hmap, sum_map_ite_count, count_pyProduct Ls t]
    by_cases hl : t.length = Ls.length
    · rw [if_pos hl, if_pos (by simp [hl]), List.zipWith_cons_cons, List.prod_cons]
    · rw [if_neg hl, if_neg (by simp [hl]), mul_zero]

theorem count_prod_split {α : Type} [DecidableEq α] (L1 : List (List α))
    (Lm : List α) (L2 : List (List α)) (pre : List α) (u : α) (post : List α)
    (h1 : L1.length = pre.length) (h2 : L2.length = post.length) :
    (KeyedFile.pyProduct (L1 ++ Lm :: L2)).count (pre ++ u :: post)
      = ((List.zipWith (fun L x => L.count x) L1 pre).prod
          * (List.zipWith (fun L x => L.count x) L2 post).prod)
        * Lm.count u := by
  rw [count_pyProduct]
  rw [if_pos (by simp [h1, h2])]
  rw [List.zipWith_append _ _ _ _ _ h1]
  rw [List.zipWith_cons_cons, List.prod_append, List.prod_cons]
  ring

/-- The number of insertions the build loop in main performs into the
accumulator of the group key t: each record is added once per occurrence
of t in its all_keysets expansion. -/
def groupCount (kf : KeyedFile) (recs : List KeyedRecord)
    (t : List String) : ℕ :=
  (recs.map (fun kr => (kf.all_keysets kr).count t)).sum

/-- A one-key-field configuration whose backoff file maps the value a to
the rollup alternate b. -/
def backoffExampleKF : KeyedFile :=
  { backoffs := [fun k => if k = "a" then Option.some ["b"] else Option.none],
    month_lag := 0, month_group := 0 }

/-- Claim C8 counterexample: with a backoff mapping the value a to the
rollup b, a single one-field record with value a counts once under the
wildcard but twice across the per-value groups a and b, so the
wildcard total is not the sum of the per-value totals. -/
theorem wildcard_sum_refuted :
    groupCount backoffExampleKF [⟨["a"], PyVal.num 1, []⟩] [""] = 1
    ∧ groupCount backoffExampleKF [⟨["a"], PyVal.num 1, []⟩] ["a"]
        + groupCount backoffExampleKF [⟨["a"], PyVal.num 1, []⟩] ["b"] = 2
    ∧ (1 : ℕ) ≠ 2 :=
  ⟨by decide, by decide, by decide⟩

theorem count_wild_pair (k : String) (hk : k ≠ "") :
    (([k, ""] : List String).count "") = 1 := by
  have hk2 : ¬ ("" = k) := fun h => hk h.symm
  simp [List.count_cons, hk2]

theorem count_pair_sum (k : String) (V : List String) (hnd : V.Nodup)
    (hk : k ∈ V) (hne : "" ∉ V) :
    (V.map (fun v => (([k, ""] : List String).count v))).sum = 1 := by
  have hkne : ¬ k = "" := fun h => hne (h ▸ hk)
  have hkne2 : ¬ ("" : String) = k := fun h => hkne h.symm
  have hexp : (V.map (fun v => (([k, ""] : List String).count v)))
      = V.map (fun v => (if v = k then 1 else 0) + (if v = "" then 1 else 0)) := by
    apply List.map_congr_left
    intro v _
    rw [List.count_cons, List.count_cons, List.count_nil]
    by_cases h1 : v = k
    · by_cases h2 : v = ""
      · exact absurd (h1.symm.trans h2) hkne
      · rw [if_pos (beq_iff_eq.mpr h1.symm), if_pos h1,
          if_neg (fun h => h2 (beq_iff_eq.mp h).symm), if_neg h2]
    · by_cases h2 : v = ""
      · rw [if_neg (fun h => h1 (beq_iff_eq.mp h).symm),
          if_pos (beq_iff_eq.mpr h2.symm), if_neg h1, if_pos h2]
      · rw [if_neg (fun h => h1 (beq_iff_eq.mp h).symm),
          if_neg (fun h => h2 (beq_iff_eq.mp h).symm), if_neg h1, if_neg h2]
  rw [hexp, show (fun v => (if v = k then 1 else 0) + (if v = "" then 1 else 0))
    = fun v => ((if v = k then 1 else 0) + (if v = "" then 1 else 0)) from rfl]
  rw [List.sum_map_add, sum_map_ite_count, sum_map_ite_count]
  rw [List.count_eq_one_of_mem hnd hk, List.count_eq_zero.mpr hne]

theorem sum_map_swap {α β : Type} (f : α → β → ℕ) :
    ∀ (V : List α) (recs : List β),
    (V.map (fun v => (recs.map (fun r => f v r)).sum)).sum
      = (recs.map (fun r => (V.map (fun v => f v r)).sum)).sum
  | [], recs => by simp
  | v :: V, recs => by
    rw [List.map_cons, List.sum_cons, sum_map_swap f V recs, ← List.sum_map_add]
    apply congrArg
    apply List.map_congr_left
    intro r _
    rw [List.map_cons, List.sum_cons]

theorem all_keysets_slot_count (kf : KeyedFile) (kr : KeyedRecord)
    (j K D : ℕ) (pre post : List String)
    (hK : kf.backoffs.length = K) (hj : j < K)
    (hkeys : kr.keys.length = K) (hdates : kr.dates.length = D)
    (hpre : pre.length = j) (hpost : post.length = K - j - 1 + D)
    (hbj : ∀ k, (kf.backoffs.getD j emptyBackoff) k = Option.none)
    (hne : kr.keys.getD j "" ≠ "") :
    ∃ A : ℕ, ∀ u : String,
      (kf.all_keysets kr).count (pre ++ u :: post)
        = A * (([kr.keys.getD j "", ""] : List String).count u) := by
  have hjb : j < kf.backoffs.length := by omega
  have hjk : j < kr.keys.length := by omega
  set KL := List.zipWith (fun k b => KeyedFile.keyCandidates b k)
    kr.keys kf.backoffs with hKLdef
  set DL := kr.dates.map (fun d => kf.valid_months d) with hDLdef
  have hKLlen : KL.length = K := by
    rw [hKLdef, List.length_zipWith, hkeys, hK, min_self]
  have hjKL : j < KL.length := by omega
  have hKLj : KL[j] = ([kr.keys.getD j "", ""] : List String) := by
    simp only [hKLdef, List.getElem_zipWith]
    have hb : kf.backoffs[j] = kf.backoffs.getD j emptyBackoff :=
      (List.getD_eq_getElem kf.backoffs emptyBackoff hjb).symm
    have hk : kr.keys[j] = kr.keys.getD j "" :=
      (List.getD_eq_getElem kr.keys "" hjk).symm
    rw [hb, hk]
    unfold KeyedFile.keyCandidates
    rw [hbj (kr.keys.getD j "")]
    show (if kr.keys.getD j "" ≠ "" then [kr.keys.getD j ""] ++ [""]
          else [kr.keys.getD j ""]) = [kr.keys.getD j "", ""]
    rw [if_pos hne]
    rfl
  have hsplit : KL = KL.take j ++ KL[j] :: KL.drop (j + 1) := by
    conv_lhs => rw [← List.take_append_drop j KL]
    rw [List.drop_eq_getElem_cons hjKL]
  have hform : KL ++ DL
      = (KL.take j) ++ (([kr.keys.getD j "", ""] : List String)
          :: (KL.drop (j + 1) ++ DL)) := by
    conv_lhs => rw [hsplit]
    rw [hKLj, List.append_assoc, List.cons_append]
  have hall : kf.all_keysets kr = KeyedFile.pyProduct (KL ++ DL) := rfl
  refine ⟨(List.zipWith (fun L x => L.count x) (KL.take j) pre).prod
      * (List.zipWith (fun L x => L.count x) (KL.drop (j + 1) ++ DL) post).prod,
    fun u => ?_⟩
  rw [hall, hform]
  rw [count_prod_split _ _ _ _ _ _ (by rw [List.length_take]; omega)
    (by
      rw [List.length_append, List.length_drop, hKLlen, hDLdef,
        List.length_map, hdates, hpost]
      omega)]

/-- Claim C8 as amended: for a key field j whose backoff table is empty
and whose value is non-empty in every record, the count accumulated
under the wildcard at slot j (holding all other slots fixed) equals the
sum over the distinct slot-j values of the per-value counts.  The
counterexample shows the equality fails as claimed once backoff
alternates exist for the field, and an empty field value likewise breaks
it (such a record counts only toward the wildcard). -/
theorem wildcard_sum (kf : KeyedFile) (recs : List KeyedRecord)
    (j K D : ℕ) (pre post : List String) (V : List String)
    (hK : kf.backoffs.length = K) (hj : j < K)
    (hrec : ∀ kr ∈ recs, kr.keys.length = K ∧ kr.dates.length = D)
    (hpre : pre.length = j) (hpost : post.length = K - j - 1 + D)
    (hbj : ∀ k, (kf.backoffs.getD j emptyBackoff) k = Option.none)
    (hne : ∀ kr ∈ recs, kr.keys.getD j "" ≠ "")
    (hmemV : ∀ kr ∈ recs, kr.keys.getD j "" ∈ V)
    (hnd : V.Nodup) (hVne : "" ∉ V) :
    groupCount kf recs (pre ++ "" :: post)
      = (V.map (fun v => groupCount kf recs (pre ++ v :: post))).sum := by
  have hptwise : ∀ kr ∈ recs, ∀ u,
      (kf.all_keysets kr).count (pre ++ u :: post)
        = ((kf.all_keysets kr).count (pre ++ "" :: post))
            * (([kr.keys.getD j "", ""] : List String).count u) := by
    intro kr hkr u
    obtain ⟨A, hA⟩ := all_keysets_slot_count kf kr j K D pre post hK hj
      (hrec kr hkr).1 (hrec kr hkr).2 hpre hpost hbj (hne kr hkr)
    rw [hA u, hA "", count_wild_pair _ (hne kr hkr), mul_one]
  unfold groupCount
  have hVswap : (V.map (fun v => (recs.map (fun kr =>
      (kf.all_keysets kr).count (pre ++ v :: post))).sum)).sum
      = (recs.map (fun kr => (V.map (fun v =>
          (kf.all_keysets kr).count (pre ++ v :: post))).sum)).sum :=
    sum_map_swap (fun v kr => (kf.all_keysets kr).count (pre ++ v :: post))
      V recs
  rw [hVswap]
  apply congrArg
  apply List.map_congr_left
  intro kr hkr
  have hmapv : (V.map (fun v => (kf.all_keysets kr).count (pre ++ v :: post)))
      = V.map (fun v => ((kf.all_keysets kr).count (pre ++ "" :: post))
          * (([kr.keys.getD j "", ""] : List String).count v)) := by
    apply List.map_congr_left
    intro v _
    exact hptwise kr hkr v
  rw [hmapv, List.sum_map_mul_left,
    count_pair_sum _ V hnd (hmemV kr hkr) hVne, mul_one]

/-- The wildcard-sum witness configuration: one key field with no
backoff file. -/
def noBackoffKF : KeyedFile :=
  { backoffs := [emptyBackoff], month_lag := 0, month_group := 0 }

/-- Claim C8 witness: three one-field records with values a, b, a: the
wildcard group receives 3 insertions, matching the per-value groups
a (2) plus b (1). -/
theorem wildcard_sum_witness :
    groupCount noBackoffKF
        [⟨["a"], PyVal.num 1, []⟩, ⟨["b"], PyVal.num 2, []⟩,
         ⟨["a"], PyVal.num 3, []⟩] ([] ++ "" :: [])
      = ((["a", "b"] : List String).map (fun v => groupCount noBackoffKF
          [⟨["a"], PyVal.num 1, []⟩, ⟨["b"], PyVal.num 2, []⟩,
           ⟨["a"], PyVal.num 3, []⟩] ([] ++ v :: []))).sum
    ∧ groupCount noBackoffKF
        [⟨["a"], PyVal.num 1, []⟩, ⟨["b"], PyVal.num 2, []⟩,
         ⟨["a"], PyVal.num 3, []⟩] [""] = 3 :=
  ⟨wildcard_sum noBackoffKF _ 0 1 0 [] [] ["a", "b"] rfl (by decide)
    (by decide) rfl rfl (fun k => rfl) (by decide) (by decide) (by decide)
    (by decide),
   by decide⟩

end KeyedStats


